import Mathlib

set_option maxHeartbeats 1000000
set_option maxRecDepth 8000
set_option linter.unusedVariables false

/- Shallow embedding of the dtig diff/hunk engine and selection state
machine.  Rust strings are modelled as `List Char`; the functions below
are direct translations of the corresponding functions in `src/git.rs`,
`src/app.rs` and `src/event.rs`.  External effects (the libgit2 calls and
the spawned patch-apply process) are modelled by passing their results in
explicitly. -/

/-- Raw split of a character sequence at every newline character; always
returns at least one (possibly empty) piece.  Building block for Rust's
`str::lines`. -/
def splitOnNl : List Char → List (List Char)
  | [] => [[]]
  | c :: cs =>
    if c = '\n' then [] :: splitOnNl cs
    else
      match splitOnNl cs with
      | [] => [[c]]
      | p :: ps => (c :: p) :: ps

/-- Strip one trailing carriage return, as Rust `str::lines` does for each
line that was terminated by a newline. -/
def stripCR (l : List Char) : List Char :=
  if l.getLast? = some '\r' then l.dropLast else l

/-- Apply `f` to every element except the last one. -/
def mapInit (f : List Char → List Char) : List (List Char) → List (List Char)
  | [] => []
  | [l] => [l]
  | l :: ls => f l :: mapInit f ls

/-- Rust `str::lines`: split at `'\n'`, strip a trailing `'\r'` from every
line that was terminated by a newline; a final line terminator is
optional (and produces no extra empty line). -/
def rustLines (s : List Char) : List (List Char) :=
  if s = [] then []
  else if s.getLast? = some '\n' then ((splitOnNl s).dropLast).map stripCR
  else mapInit stripCR (splitOnNl s)

/-- Rust `Vec::<String>::join("\n")`. -/
def joinNl : List (List Char) → List Char
  | [] => []
  | [l] => l
  | l :: ls => l ++ '\n' :: joinNl ls

/-- Rust `line.starts_with("@@")`. -/
def startsWithHH (l : List Char) : Bool :=
  match l with
  | a :: b :: _ => a = '@' && b = '@'
  | _ => false

/-- `ParsedDiff` from `src/git.rs`: a header and an ordered list of hunks. -/
structure ParsedDiff where
  header : List Char
  hunks : List (List Char)
  deriving DecidableEq

/-- The hunk-collecting loop of `parse_diff_output` (`src/git.rs:241-256`):
`cur` is `current_hunk`, `inHunk` is `in_hunk`; a completed hunk
(joined with newlines) is pushed when a new `@@` line is seen and once
more at end of input when a hunk is open. -/
def processHunks : List (List Char) → List (List Char) → Bool → List (List Char)
  | [], cur, inHunk => if inHunk then [joinNl cur] else []
  | l :: rest, cur, inHunk =>
    if startsWithHH l then
      if inHunk then joinNl cur :: processHunks rest [l] true
      else processHunks rest [l] true
    else
      if inHunk then processHunks rest (cur ++ [l]) true
      else processHunks rest cur false

/-- The header-building loop of `parse_diff_output`:
`header.push_str(line); header.push('\n')` for each collected line. -/
def pushLines : List (List Char) → List Char
  | [] => []
  | l :: ls => l ++ '\n' :: pushLines ls

/-- `src/git.rs:259-261`: remove a trailing newline from the header if
present. -/
def popTrailingNl (h : List Char) : List Char :=
  if h.getLast? = some '\n' then h.dropLast else h

/-- `parse_diff_output` (`src/git.rs:222-264`): lines before the first
`@@` line form the header; the remaining lines are grouped into hunks,
a new hunk starting at every `@@` line. -/
def parse_diff_output (s : List Char) : ParsedDiff :=
  let lines := rustLines s
  let headerLines := lines.takeWhile (fun l => !startsWithHH l)
  let rest := lines.dropWhile (fun l => !startsWithHH l)
  ⟨popTrailingNl (pushLines headerLines), processHunks rest [] false⟩

/-- `create_patch_from_hunk` (`src/git.rs:209-220`). -/
def create_patch_from_hunk (pd : ParsedDiff) (i : Nat) : Option (List Char) :=
  if h : i < pd.hunks.length then
    some (pd.header ++ ['\n'] ++ pd.hunks.get ⟨i, h⟩ ++ ['\n'])
  else none

/-- The `FileType::Untracked` arm of `get_diff` (`src/git.rs:65-77`), as a
function of the file's contents: every content line prefixed with `'+'`,
joined with newlines. -/
def get_diff_untracked (content : List Char) : List Char :=
  joinNl ((rustLines content).map (fun l => '+' :: l))

/-- Result of the spawned `git apply --cached` process. -/
structure ProcOutput where
  status_success : Bool
  out_stdout : List Char
  out_stderr : List Char
  deriving DecidableEq

/-- `apply_patch_to_index` (`src/git.rs:168-202`): `run_result` is the
outcome of spawning the process, writing the patch to its stdin and
waiting for it (an `error` models a spawn/write/wait failure).  On a
collected output, only the exit status is inspected. -/
def apply_patch_to_index (patch : List Char)
    (run_result : Except (List Char) ProcOutput) : Except (List Char) Unit :=
  match run_result with
  | Except.error e => Except.error e
  | Except.ok output =>
    if output.status_success then Except.ok ()
    else Except.error
      ("git apply failed: ".data ++ output.out_stdout ++ '\n' :: output.out_stderr)

/-- `FileType` from `src/git.rs`. -/
inductive FileType
  | Staged
  | NotStaged
  | Untracked
  deriving DecidableEq

/-- `StatusFiles` from `src/git.rs`: the tri-partition of paths. -/
structure StatusFiles where
  staged : List (List Char)
  not_staged : List (List Char)
  untracked : List (List Char)
  deriving DecidableEq

/-- `StatusFiles::total_files` (`src/git.rs:12-14`). -/
def total_files (st : StatusFiles) : Nat :=
  st.staged.length + st.not_staged.length + st.untracked.length

/-- `FocusArea` from `src/app.rs`. -/
inductive FocusArea
  | Commit
  | Files
  | Diff
  deriving DecidableEq

/-- The fields of `App` (`src/app.rs:10-22`) other than the repository
handle; `diff_scroll` is a `u16` in the source, modelled as a `Nat` kept
below `2 ^ 16` by the saturating arithmetic of the event handler. -/
structure App where
  status : StatusFiles
  selected_file_type : FileType
  selected_file_index : Nat
  should_quit : Bool
  commit_message : List Char
  focus : FocusArea
  diff : List Char
  parsed_diff : Option ParsedDiff
  diff_scroll : Nat
  diff_selected_line : Nat
  deriving DecidableEq

/-- Results of the repository-effect calls an `App` method may make: what
`git::get_status` returns, what `git::get_diff` returns for a given path
and file type, and whether `git::stage` / `git::unstage` / `git::commit` /
`git::apply_patch_to_index` succeed. -/
structure GitEnv where
  status : StatusFiles
  diff_result : List Char → FileType → Except (List Char) (List Char)
  stage_ok : Bool
  unstage_ok : Bool
  commit_ok : Bool
  apply_ok : Bool
  reverse_ok : Bool

/-- The list of the section currently named by a `FileType` (the three
per-section `match` arms used throughout `src/app.rs`). -/
def sectionList (st : StatusFiles) : FileType → List (List Char)
  | FileType.Staged => st.staged
  | FileType.NotStaged => st.not_staged
  | FileType.Untracked => st.untracked

/-- `App::get_selected_file` (`src/app.rs:59-77`). -/
def get_selected_file (a : App) : Option (List Char × FileType) :=
  ((sectionList a.status a.selected_file_type).get? a.selected_file_index).map
    (fun s => (s, a.selected_file_type))

/-- `App::update_diff` (`src/app.rs:79-99`). -/
def update_diff (env : GitEnv) (a : App) : App :=
  match get_selected_file a with
  | some (path, file_type) =>
    match env.diff_result path file_type with
    | Except.ok text =>
      { a with parsed_diff := some (parse_diff_output text), diff := text,
               diff_scroll := 0, diff_selected_line := 0 }
    | Except.error e =>
      { a with parsed_diff := none,
               diff := "Failed to generate diff: ".data ++ e,
               diff_scroll := 0, diff_selected_line := 0 }
  | none =>
    { a with parsed_diff := none, diff := [],
             diff_scroll := 0, diff_selected_line := 0 }

/-- `App::update_status` (`src/app.rs:43-57`): refresh the status, clamp
the selected index into the (possibly empty) current section, refresh the
diff. -/
def update_status (env : GitEnv) (a : App) : App :=
  let st := env.status
  let len := (sectionList st a.selected_file_type).length
  let idx :=
    if len = 0 then 0
    else if a.selected_file_index ≥ len then len - 1
    else a.selected_file_index
  update_diff env { a with status := st, selected_file_index := idx }

/-- The selection arithmetic of `App::select_next` (`src/app.rs:101-150`)
as a pure function of the three section lengths. -/
def select_next_sel (s n u : Nat) : FileType × Nat → FileType × Nat
  | (FileType.Staged, i) =>
    if i + 1 < s then (FileType.Staged, i + 1)
    else if 0 < n then (FileType.NotStaged, 0)
    else if 0 < u then (FileType.Untracked, 0)
    else (FileType.Staged, 0)
  | (FileType.NotStaged, i) =>
    if i + 1 < n then (FileType.NotStaged, i + 1)
    else if 0 < u then (FileType.Untracked, 0)
    else if 0 < s then (FileType.Staged, 0)
    else (FileType.NotStaged, 0)
  | (FileType.Untracked, i) =>
    if i + 1 < u then (FileType.Untracked, i + 1)
    else if 0 < s then (FileType.Staged, 0)
    else if 0 < n then (FileType.NotStaged, 0)
    else (FileType.Untracked, 0)

/-- `App::select_next` (`src/app.rs:101-150`). -/
def select_next (env : GitEnv) (a : App) : App :=
  let p := select_next_sel a.status.staged.length a.status.not_staged.length
    a.status.untracked.length (a.selected_file_type, a.selected_file_index)
  update_diff env { a with selected_file_type := p.1, selected_file_index := p.2 }

/-- The selection arithmetic of `App::select_previous`
(`src/app.rs:152-201`) as a pure function of the three section lengths. -/
def select_previous_sel (s n u : Nat) : FileType × Nat → FileType × Nat
  | (FileType.Staged, i) =>
    if 0 < i then (FileType.Staged, i - 1)
    else if 0 < u then (FileType.Untracked, u - 1)
    else if 0 < n then (FileType.NotStaged, n - 1)
    else (FileType.Staged, 0)
  | (FileType.NotStaged, i) =>
    if 0 < i then (FileType.NotStaged, i - 1)
    else if 0 < s then (FileType.Staged, s - 1)
    else if 0 < u then (FileType.Untracked, u - 1)
    else (FileType.NotStaged, 0)
  | (FileType.Untracked, i) =>
    if 0 < i then (FileType.Untracked, i - 1)
    else if 0 < n then (FileType.NotStaged, n - 1)
    else if 0 < s then (FileType.Staged, s - 1)
    else (FileType.Untracked, 0)

/-- `App::select_previous` (`src/app.rs:152-201`). -/
def select_previous (env : GitEnv) (a : App) : App :=
  let p := select_previous_sel a.status.staged.length a.status.not_staged.length
    a.status.untracked.length (a.selected_file_type, a.selected_file_index)
  update_diff env { a with selected_file_type := p.1, selected_file_index := p.2 }

/-- `App::toggle_selection` (`src/app.rs:203-213`). -/
def toggle_selection (env : GitEnv) (a : App) : App :=
  match get_selected_file a with
  | some (_, file_type) =>
    let ok := match file_type with
      | FileType.Staged => env.unstage_ok
      | FileType.NotStaged => env.stage_ok
      | FileType.Untracked => env.stage_ok
    if ok then update_status env a else a
  | none => a

/-- `App::commit` (`src/app.rs:215-222`): only a non-empty message with a
successful backend commit clears the buffer and refreshes the status. -/
def commit (env : GitEnv) (a : App) : App :=
  if !a.commit_message.isEmpty && env.commit_ok then
    update_status env { a with commit_message := [] }
  else a

/-- Helper for locating the hunk containing a rendered diff line:
given the rendered line counts of the hunks, the index of the hunk
containing the given line offset. -/
def findHunkAux : List Nat → Nat → Nat → Option Nat
  | [], _, _ => none
  | len :: rest, i, line =>
    if line < len then some i else findHunkAux rest (i + 1) (line - len)

/-- Modelled from the spec: `git::get_hunk_index_from_line` is called by
`App::apply_hunk` but its definition is not among the given sources.
Per §4.6 the hunk selected is the one whose range of rendered diff lines
covers the selected line (after scroll adjustment); the rendered diff is
the header's lines followed by each hunk's lines. -/
def get_hunk_index_from_line (pd : ParsedDiff) (line : Nat) : Option Nat :=
  let headerLen := (rustLines pd.header).length
  if line < headerLen then none
  else findHunkAux (pd.hunks.map (fun h => (rustLines h).length)) 0 (line - headerLen)

/-- `App::apply_hunk` (`src/app.rs:224-239`). -/
def apply_hunk (env : GitEnv) (a : App) : App :=
  match a.parsed_diff with
  | some pd =>
    match get_hunk_index_from_line pd (a.diff_selected_line - a.diff_scroll) with
    | some hunk_index =>
      match create_patch_from_hunk pd hunk_index with
      | some _ => if env.apply_ok then update_status env a else a
      | none => a
    | none => a
  | none => a

/-- Modelled from the spec: `App::reverse_hunk` (invoked from the Diff
focus on Enter for a staged file, `src/event.rs:60`) is not among the
given sources.  Per §4.5-4.6 it builds the patch for the hunk covering
the selected line and reverse-applies it to the index, refreshing the
status on success. -/
def reverse_hunk (env : GitEnv) (a : App) : App :=
  match a.parsed_diff with
  | some pd =>
    match get_hunk_index_from_line pd (a.diff_selected_line - a.diff_scroll) with
    | some hunk_index =>
      match create_patch_from_hunk pd hunk_index with
      | some _ => if env.reverse_ok then update_status env a else a
      | none => a
    | none => a
  | none => a

/-- The subset of `crossterm` key codes relevant to `handle_key_event`,
plus unbound keys that fall into the wildcard arms. -/
inductive KeyCode
  | Char (c : Char)
  | Backspace
  | Enter
  | Down
  | Up
  | Left
  | Right
  | Esc
  | Tab
  | Home
  | End
  | PageUp
  | PageDown
  | Delete
  deriving DecidableEq

/-- `handle_key_event` (`src/event.rs:5-66`). -/
def handle_key_event (env : GitEnv) (a : App) (key_code : KeyCode)
    (diff_view_height : Nat) : App :=
  match a.focus with
  | FocusArea.Commit =>
    match key_code with
    | KeyCode.Char c =>
      if c = 'q' then { a with should_quit := true }
      else { a with commit_message := a.commit_message ++ [c] }
    | KeyCode.Backspace => { a with commit_message := a.commit_message.dropLast }
    | KeyCode.Enter => commit env a
    | KeyCode.Down => { a with focus := FocusArea.Files }
    | _ => a
  | FocusArea.Files =>
    match key_code with
    | KeyCode.Char c => if c = 'q' then { a with should_quit := true } else a
    | KeyCode.Down => select_next env a
    | KeyCode.Up =>
      if a.selected_file_index = 0 ∧ a.selected_file_type = FileType.Staged then
        { a with focus := FocusArea.Commit }
      else select_previous env a
    | KeyCode.Enter => toggle_selection env a
    | KeyCode.Right => { a with focus := FocusArea.Diff }
    | _ => a
  | FocusArea.Diff =>
    match key_code with
    | KeyCode.Char c => if c = 'q' then { a with should_quit := true } else a
    | KeyCode.Left => { a with focus := FocusArea.Files }
    | KeyCode.Down =>
      let diff_lines := (rustLines a.diff).length
      if 0 < diff_lines then
        let new_line := min (a.diff_selected_line + 1) (diff_lines - 1)
        let new_scroll :=
          if new_line ≥ a.diff_scroll + diff_view_height
          then min (a.diff_scroll + 1) 65535
          else a.diff_scroll
        { a with diff_selected_line := new_line, diff_scroll := new_scroll }
      else a
    | KeyCode.Up =>
      if 0 < a.diff_selected_line then
        let new_line := a.diff_selected_line - 1
        let new_scroll :=
          if new_line < a.diff_scroll then a.diff_scroll - 1 else a.diff_scroll
        { a with diff_selected_line := new_line, diff_scroll := new_scroll }
      else a
    | KeyCode.Enter =>
      match a.selected_file_type with
      | FileType.Staged => reverse_hunk env a
      | FileType.NotStaged => apply_hunk env a
      | FileType.Untracked => apply_hunk env a
    | _ => a

/-- Whether a key code is handled by a non-wildcard arm of
`handle_key_event` in the given focus. -/
def hasBinding (f : FocusArea) (k : KeyCode) : Bool :=
  match f, k with
  | FocusArea.Commit, KeyCode.Char _ => true
  | FocusArea.Commit, KeyCode.Backspace => true
  | FocusArea.Commit, KeyCode.Enter => true
  | FocusArea.Commit, KeyCode.Down => true
  | FocusArea.Files, KeyCode.Char c => decide (c = 'q')
  | FocusArea.Files, KeyCode.Down => true
  | FocusArea.Files, KeyCode.Up => true
  | FocusArea.Files, KeyCode.Enter => true
  | FocusArea.Files, KeyCode.Right => true
  | FocusArea.Diff, KeyCode.Char c => decide (c = 'q')
  | FocusArea.Diff, KeyCode.Left => true
  | FocusArea.Diff, KeyCode.Down => true
  | FocusArea.Diff, KeyCode.Up => true
  | FocusArea.Diff, KeyCode.Enter => true
  | _, _ => false

/-- The FileSelector invariant from the spec: the selected index is in
bounds of the currently selected section, or `0` when that section is
empty. -/
def selection_invariant (a : App) : Prop :=
  a.selected_file_index < (sectionList a.status a.selected_file_type).length ∨
  ((sectionList a.status a.selected_file_type).length = 0 ∧ a.selected_file_index = 0)

instance (a : App) : Decidable (selection_invariant a) := by
  unfold selection_invariant
  infer_instance

/-- The length of the section a `FileType` names, as a pure function of
the three section lengths. -/
def secCount (s n u : Nat) : FileType → Nat
  | FileType.Staged => s
  | FileType.NotStaged => n
  | FileType.Untracked => u

/-- Flat index of a selection on the ring
Staged 0..s-1, NotStaged 0..n-1, Untracked 0..u-1. -/
def toFlat (s n : Nat) : FileType × Nat → Nat
  | (FileType.Staged, i) => i
  | (FileType.NotStaged, i) => s + i
  | (FileType.Untracked, i) => s + n + i

/-- Selection denoted by a flat ring index. -/
def ofFlat (s n : Nat) (k : Nat) : FileType × Nat :=
  if k < s then (FileType.Staged, k)
  else if k < s + n then (FileType.NotStaged, k - s)
  else (FileType.Untracked, k - s - n)

/-- Concrete status fixture used by witness theorems: one staged file and
one not-staged file. -/
def stW : StatusFiles := ⟨[['a']], [['b']], []⟩

/-- Concrete effect environment for witness theorems: the refreshed status
is `st`, every failable operation succeeds and every diff is empty. -/
def mkEnv (st : StatusFiles) : GitEnv :=
  ⟨st, fun _ _ => Except.ok [], true, true, true, true, true⟩

/-- Concrete application state for witness theorems. -/
def mkApp (st : StatusFiles) (ft : FileType) (i : Nat) (msg : List Char) : App :=
  ⟨st, ft, i, false, msg, FocusArea.Files, [], none, 0, 0⟩

/- ## Lemmas about the line/text model -/

theorem splitOnNl_ne_nil (s : List Char) : splitOnNl s ≠ [] := by
  cases s with
  | nil => simp [splitOnNl]
  | cons c cs =>
    unfold splitOnNl
    split
    · simp
    · cases h : splitOnNl cs <;> simp

theorem joinNl_splitOnNl (s : List Char) : joinNl (splitOnNl s) = s := by
  induction s with
  | nil => rfl
  | cons c cs ih =>
    unfold splitOnNl
    by_cases hc : c = '\n'
    · rw [if_pos hc]
      obtain ⟨p, ps, hps⟩ := List.exists_cons_of_ne_nil (splitOnNl_ne_nil cs)
      rw [hps]
      show '\n' :: joinNl (p :: ps) = c :: cs
      rw [← hps, ih, hc]
    · rw [if_neg hc]
      rcases hps : splitOnNl cs with _ | ⟨p, ps⟩
      · exact absurd hps (splitOnNl_ne_nil cs)
      · cases ps with
        | nil =>
          show c :: p = c :: cs
          have : joinNl (splitOnNl cs) = cs := ih
          rw [hps] at this
          rw [show joinNl [p] = p from rfl] at this
          rw [this]
        | cons q qs =>
          show (c :: p) ++ '\n' :: joinNl (q :: qs) = c :: cs
          have : joinNl (splitOnNl cs) = cs := ih
          rw [hps] at this
          rw [show joinNl (p :: q :: qs) = p ++ '\n' :: joinNl (q :: qs) from rfl] at this
          rw [← this]
          rfl

theorem mem_splitOnNl_sub {s p : List Char} (hp : p ∈ splitOnNl s) :
    ∀ c ∈ p, c ∈ s := by
  induction s generalizing p with
  | nil =>
    simp [splitOnNl] at hp
    subst hp; simp
  | cons a as ih =>
    unfold splitOnNl at hp
    by_cases ha : a = '\n'
    · rw [if_pos ha] at hp
      rcases List.mem_cons.1 hp with h | h
      · subst h; simp
      · intro c hc; exact List.mem_cons_of_mem _ (ih h c hc)
    · rw [if_neg ha] at hp
      rcases hsp : splitOnNl as with _ | ⟨q, qs⟩
      · exact absurd hsp (splitOnNl_ne_nil as)
      · rw [hsp] at hp
        rcases List.mem_cons.1 hp with h | h
        · subst h
          intro c hc
          rcases List.mem_cons.1 hc with h' | h'
          · subst h'; simp
          · exact List.mem_cons_of_mem _
              (ih (by rw [hsp]; exact List.mem_cons_self q qs) c h')
        · intro c hc
          exact List.mem_cons_of_mem _
            (ih (by rw [hsp]; exact List.mem_cons_of_mem _ h) c hc)

theorem not_nl_mem_splitOnNl {s p : List Char} (hp : p ∈ splitOnNl s) : '\n' ∉ p := by
  induction s generalizing p with
  | nil =>
    simp [splitOnNl] at hp
    subst hp; simp
  | cons a as ih =>
    unfold splitOnNl at hp
    by_cases ha : a = '\n'
    · rw [if_pos ha] at hp
      rcases List.mem_cons.1 hp with h | h
      · subst h; simp
      · exact ih h
    · rw [if_neg ha] at hp
      rcases hsp : splitOnNl as with _ | ⟨q, qs⟩
      · exact absurd hsp (splitOnNl_ne_nil as)
      · rw [hsp] at hp
        rcases List.mem_cons.1 hp with h | h
        · subst h
          intro hmem
          rcases List.mem_cons.1 hmem with h' | h'
          · exact ha h'.symm
          · exact ih (by rw [hsp]; exact List.mem_cons_self q qs) h'
        · exact ih (by rw [hsp]; exact List.mem_cons_of_mem _ h)

theorem stripCR_of_not_cr {l : List Char} (h : '\r' ∉ l) : stripCR l = l := by
  unfold stripCR
  rw [if_neg]
  intro hl
  exact h (List.mem_of_getLast?_eq_some hl)

theorem stripCR_subset (l : List Char) : ∀ c ∈ stripCR l, c ∈ l := by
  unfold stripCR
  split
  · intro c hc; exact List.mem_of_mem_dropLast hc
  · intro c hc; exact hc

theorem mapInit_id {f : List Char → List Char} :
    ∀ {l : List (List Char)}, (∀ x ∈ l, f x = x) → mapInit f l = l
  | [], _ => rfl
  | [x], _ => rfl
  | x :: y :: t, h => by
    show f x :: mapInit f (y :: t) = x :: y :: t
    rw [h x (List.mem_cons_self _ _),
      mapInit_id (fun z hz => h z (List.mem_cons_of_mem _ hz))]

theorem mem_mapInit {f : List Char → List Char} :
    ∀ {l : List (List Char)} {y : List Char},
      y ∈ mapInit f l → ∃ x ∈ l, y = f x ∨ y = x
  | [x], y, h => by
    simp [mapInit] at h
    exact ⟨x, by simp, Or.inr h⟩
  | x :: x' :: t, y, h => by
    rcases List.mem_cons.1 h with h' | h'
    · exact ⟨x, by simp, Or.inl h'⟩
    · obtain ⟨z, hz, hcase⟩ := mem_mapInit h'
      exact ⟨z, List.mem_cons_of_mem _ hz, hcase⟩

theorem joinNl_rustLines {s : List Char} (hr : '\r' ∉ s)
    (hn : s.getLast? ≠ some '\n') : joinNl (rustLines s) = s := by
  unfold rustLines
  by_cases hs : s = []
  · rw [if_pos hs, hs]; rfl
  · rw [if_neg hs, if_neg hn]
    have hid : mapInit stripCR (splitOnNl s) = splitOnNl s :=
      mapInit_id (fun x hx =>
        stripCR_of_not_cr (fun hc => hr (mem_splitOnNl_sub hx _ hc)))
    rw [hid, joinNl_splitOnNl]

theorem joinNl_append : ∀ {A B : List (List Char)}, A ≠ [] → B ≠ [] →
    joinNl (A ++ B) = joinNl A ++ '\n' :: joinNl B
  | [], _, hA, _ => absurd rfl hA
  | [a], B, _, hB => by
    obtain ⟨b, bs, hb⟩ := List.exists_cons_of_ne_nil hB
    subst hb
    rfl
  | a :: a' :: A', B, _, hB => by
    have hrec := joinNl_append (A := a' :: A') (B := B) (by simp) hB
    show a ++ '\n' :: joinNl (a' :: A' ++ B) = (a ++ '\n' :: joinNl (a' :: A')) ++ '\n' :: joinNl B
    rw [hrec]
    simp

theorem pushLines_ne_nil : ∀ {ls : List (List Char)}, ls ≠ [] → pushLines ls ≠ []
  | l :: ls, _ => by
    show l ++ '\n' :: pushLines ls ≠ []
    simp

theorem getLast?_pushLines : ∀ {ls : List (List Char)}, ls ≠ [] →
    (pushLines ls).getLast? = some '\n'
  | [l], _ => by
    show (l ++ '\n' :: pushLines []).getLast? = some '\n'
    rw [show pushLines [] = [] from rfl]
    exact List.getLast?_concat _
  | l :: l' :: ls, _ => by
    show (l ++ '\n' :: pushLines (l' :: ls)).getLast? = some '\n'
    have hrec := @getLast?_pushLines (l' :: ls) (by simp)
    obtain ⟨b, bs, hb⟩ :=
      List.exists_cons_of_ne_nil (@pushLines_ne_nil (l' :: ls) (by simp))
    rw [List.getLast?_append, hb, List.getLast?_cons_cons, ← hb, hrec]
    rfl

theorem dropLast_pushLines : ∀ {ls : List (List Char)}, ls ≠ [] →
    (pushLines ls).dropLast = joinNl ls
  | [l], _ => by
    show (l ++ '\n' :: pushLines []).dropLast = joinNl [l]
    rw [show pushLines [] = [] from rfl]
    exact List.dropLast_concat
  | l :: l' :: ls, _ => by
    show (l ++ '\n' :: pushLines (l' :: ls)).dropLast = joinNl (l :: l' :: ls)
    have hP : pushLines (l' :: ls) ≠ [] := pushLines_ne_nil (by simp)
    rw [List.dropLast_append_cons,
      List.dropLast_cons_of_ne_nil hP, @dropLast_pushLines (l' :: ls) (by simp)]
    rfl

theorem popTrailingNl_pushLines (ls : List (List Char)) :
    popTrailingNl (pushLines ls) = joinNl ls := by
  cases ls with
  | nil => rfl
  | cons l ls' =>
    unfold popTrailingNl
    rw [if_pos (getLast?_pushLines (by simp)), dropLast_pushLines (by simp)]

theorem processHunks_length (ls : List (List Char)) :
    ∀ (cur : List (List Char)) (inHunk : Bool),
      (processHunks ls cur inHunk).length =
        ls.countP (fun l => startsWithHH l) + (if inHunk then 1 else 0) := by
  induction ls with
  | nil => intro cur inHunk; cases inHunk <;> simp [processHunks]
  | cons l rest ih =>
    intro cur inHunk
    cases hl : startsWithHH l <;> cases inHunk <;>
      simp [processHunks, hl, ih, List.countP_cons]

theorem processHunks_ne_nil (ls : List (List Char)) :
    ∀ cur, processHunks ls cur true ≠ [] := by
  induction ls with
  | nil => intro cur; simp [processHunks]
  | cons l rest ih =>
    intro cur
    cases hl : startsWithHH l <;> simp [processHunks, hl, ih]

theorem joinNl_processHunks (ls : List (List Char)) : ∀ cur, cur ≠ [] →
    joinNl (processHunks ls cur true) = joinNl (cur ++ ls) := by
  induction ls with
  | nil =>
    intro cur hcur
    show joinNl [joinNl cur] = joinNl (cur ++ [])
    rw [List.append_nil]
    rfl
  | cons l rest ih =>
    intro cur hcur
    by_cases hl : startsWithHH l = true
    · have hne : processHunks rest [l] true ≠ [] := processHunks_ne_nil rest [l]
      obtain ⟨h, t, hht⟩ := List.exists_cons_of_ne_nil hne
      calc joinNl (processHunks (l :: rest) cur true)
          = joinNl (joinNl cur :: processHunks rest [l] true) := by
            simp [processHunks, hl]
        _ = joinNl cur ++ '\n' :: joinNl (processHunks rest [l] true) := by
            rw [hht]; rfl
        _ = joinNl cur ++ '\n' :: joinNl ([l] ++ rest) := by rw [ih [l] (by simp)]
        _ = joinNl (cur ++ l :: rest) := (joinNl_append hcur (by simp)).symm
    · calc joinNl (processHunks (l :: rest) cur true)
          = joinNl (processHunks rest (cur ++ [l]) true) := by
            simp [processHunks, hl]
        _ = joinNl ((cur ++ [l]) ++ rest) := ih _ (by simp)
        _ = joinNl (cur ++ l :: rest) := by simp

theorem parse_header_eq (s : List Char) :
    (parse_diff_output s).header =
      joinNl ((rustLines s).takeWhile (fun l => !startsWithHH l)) :=
  popTrailingNl_pushLines _

theorem parse_hunks_length (s : List Char) :
    (parse_diff_output s).hunks.length =
      (rustLines s).countP (fun l => startsWithHH l) := by
  show (processHunks ((rustLines s).dropWhile (fun l => !startsWithHH l)) [] false).length = _
  rw [processHunks_length]
  have h0 : ((rustLines s).takeWhile
      (fun l => !startsWithHH l)).countP (fun l => startsWithHH l) = 0 := by
    rw [List.countP_eq_zero]
    intro a ha
    have := List.mem_takeWhile_imp ha
    simp at this
    simp [this]
  conv_rhs => rw [← List.takeWhile_append_dropWhile (fun l => !startsWithHH l) (rustLines s)]
  rw [List.countP_append, h0]
  simp

theorem splitOnNl_of_no_nl {x : List Char} (h : '\n' ∉ x) : splitOnNl x = [x] := by
  induction x with
  | nil => rfl
  | cons c cs ih =>
    have hrec : splitOnNl cs = [cs] := ih (fun hm => h (List.mem_cons_of_mem _ hm))
    unfold splitOnNl
    rw [if_neg (fun hc => h (by rw [hc]; exact List.mem_cons_self _ _)), hrec]

theorem splitOnNl_append {a : List Char} (h : '\n' ∉ a) :
    ∀ {t p : List Char} {ps : List (List Char)},
      splitOnNl t = p :: ps → splitOnNl (a ++ t) = (a ++ p) :: ps := by
  induction a with
  | nil => intro t p ps ht; simpa using ht
  | cons c cs ih =>
    intro t p ps ht
    have hrec := ih (fun hm => h (List.mem_cons_of_mem _ hm)) ht
    show splitOnNl (c :: (cs ++ t)) = ((c :: cs) ++ p) :: ps
    unfold splitOnNl
    rw [if_neg (fun hc => h (by rw [hc]; exact List.mem_cons_self _ _)), hrec]
    rfl

theorem splitOnNl_joinNl : ∀ {xs : List (List Char)}, xs ≠ [] →
    (∀ x ∈ xs, '\n' ∉ x) → splitOnNl (joinNl xs) = xs
  | [x], _, h => by
    show splitOnNl x = [x]
    exact splitOnNl_of_no_nl (h x (by simp))
  | x :: x' :: xs, _, h => by
    show splitOnNl (x ++ '\n' :: joinNl (x' :: xs)) = x :: x' :: xs
    have hrec := @splitOnNl_joinNl (x' :: xs) (by simp)
      (fun y hy => h y (List.mem_cons_of_mem _ hy))
    have hnl : splitOnNl ('\n' :: joinNl (x' :: xs)) = [] :: x' :: xs := by
      unfold splitOnNl
      rw [if_pos rfl, hrec]
    rw [splitOnNl_append (h x (by simp)) hnl]
    simp

theorem joinNl_getLast? : ∀ {xs : List (List Char)}, xs ≠ [] →
    (∀ x ∈ xs, x ≠ [] ∧ '\n' ∉ x) → (joinNl xs).getLast? ≠ some '\n'
  | [x], _, h => by
    show x.getLast? ≠ some '\n'
    intro hx
    exact (h x (by simp)).2 (List.mem_of_getLast?_eq_some hx)
  | x :: x' :: xs, _, h => by
    show (x ++ '\n' :: joinNl (x' :: xs)).getLast? ≠ some '\n'
    have hrec := @joinNl_getLast? (x' :: xs) (by simp)
      (fun y hy => h y (List.mem_cons_of_mem _ hy))
    have hne : joinNl (x' :: xs) ≠ [] := by
      cases xs with
      | nil => exact (h x' (by simp)).1
      | cons z zs =>
        show x' ++ '\n' :: joinNl (z :: zs) ≠ []
        simp
    obtain ⟨b, bs, hb⟩ := List.exists_cons_of_ne_nil hne
    rw [List.getLast?_append, hb, List.getLast?_cons_cons, ← hb]
    cases hJ : (joinNl (x' :: xs)).getLast? with
    | none =>
      rw [List.getLast?_eq_none_iff] at hJ
      exact absurd hJ hne
    | some c =>
      have hc : c ≠ '\n' := fun hceq => hrec (by rw [hJ, hceq])
      simpa using hc

theorem joinNl_head_ne_nil {x : List Char} {xs : List (List Char)} (hx : x ≠ []) :
    joinNl (x :: xs) ≠ [] := by
  cases xs with
  | nil => exact hx
  | cons z zs =>
    show x ++ '\n' :: joinNl (z :: zs) ≠ []
    simp

theorem mem_rustLines_mem_split {s : List Char} :
    ∀ l ∈ rustLines s, ∃ p ∈ splitOnNl s, ∀ c ∈ l, c ∈ p := by
  unfold rustLines
  split
  · simp
  · split
    · intro l hl
      obtain ⟨p, hp, hpe⟩ := List.mem_map.1 hl
      exact ⟨p, List.mem_of_mem_dropLast hp,
        fun c hc => stripCR_subset p c (by rw [hpe]; exact hc)⟩
    · intro l hl
      obtain ⟨p, hp, hcase⟩ := mem_mapInit hl
      rcases hcase with hcase | hcase
      · exact ⟨p, hp, fun c hc => stripCR_subset p c (by rw [← hcase]; exact hc)⟩
      · exact ⟨p, hp, fun c hc => by rw [← hcase]; exact hc⟩

theorem mem_rustLines_no_nl {s l : List Char} (hl : l ∈ rustLines s) : '\n' ∉ l := by
  obtain ⟨p, hp, hsub⟩ := mem_rustLines_mem_split l hl
  exact fun hnl => not_nl_mem_splitOnNl hp (hsub _ hnl)

theorem stripCR_plus_head (l : List Char) : (stripCR ('+' :: l)).head? = some '+' := by
  unfold stripCR
  split
  · next hlast =>
    cases l with
    | nil => exact absurd hlast (by decide)
    | cons b bs =>
      rw [List.dropLast_cons_of_ne_nil (by simp)]
      rfl
  · rfl

theorem startsWithHH_of_head_plus {y : List Char} (h : y.head? = some '+') :
    startsWithHH y = false := by
  cases y with
  | nil => simp at h
  | cons a t =>
    have ha : a = '+' := by simpa using h
    subst ha
    cases t with
    | nil => rfl
    | cons b bs => rfl

theorem dropWhile_head_hh {L : List (List Char)} {r₀ : List Char} {R' : List (List Char)}
    (h : L.dropWhile (fun l => !startsWithHH l) = r₀ :: R') :
    startsWithHH r₀ = true := by
  induction L with
  | nil => simp [List.dropWhile] at h
  | cons x t ih =>
    rw [List.dropWhile_cons] at h
    split at h
    · exact ih h
    · next hx =>
      cases h
      simpa using hx

theorem takeWhile_all_not_hh {L : List (List Char)}
    (h : ∀ l ∈ L, startsWithHH l = false) :
    L.takeWhile (fun l => !startsWithHH l) = L := by
  induction L with
  | nil => rfl
  | cons x t ih =>
    rw [List.takeWhile_cons, if_pos (by simp [h x (List.mem_cons_self x t)])]
    rw [ih (fun l hl => h l (List.mem_cons_of_mem _ hl))]

/- ## Claim theorems about the diff parser and patch builder -/

/-- Claim C1: for every input, `parse_diff_output` returns as header exactly
the lines preceding the first `@@`-starting line, joined with newlines (so
the header is a function of that prefix alone and does not depend on what
follows), and returns exactly as many hunks as there are `@@`-starting
lines in the input. -/
theorem parse_diff_output_header_and_count (s : List Char) :
    (parse_diff_output s).header =
      joinNl ((rustLines s).takeWhile (fun l => !startsWithHH l)) ∧
    (parse_diff_output s).hunks.length =
      (rustLines s).countP (fun l => startsWithHH l) :=
  ⟨parse_header_eq s, parse_hunks_length s⟩

/-- Claim C2: `create_patch_from_hunk` returns
`header ++ "\n" ++ hunks[i] ++ "\n"` for an in-range hunk index, and `none`
for an out-of-range one. -/
theorem create_patch_from_hunk_spec (pd : ParsedDiff) (i : Nat) :
    (∀ h : i < pd.hunks.length,
      create_patch_from_hunk pd i =
        some (pd.header ++ ['\n'] ++ pd.hunks.get ⟨i, h⟩ ++ ['\n'])) ∧
    (pd.hunks.length ≤ i → create_patch_from_hunk pd i = none) := by
  constructor
  · intro h
    simp [create_patch_from_hunk, h]
  · intro h
    simp [create_patch_from_hunk, Nat.not_lt.2 h]

/-- Witness for C2 at a concrete `ParsedDiff` with one hunk. -/
theorem create_patch_from_hunk_spec_witness :
    0 < (ParsedDiff.mk "H".data ["K".data]).hunks.length ∧
    create_patch_from_hunk (ParsedDiff.mk "H".data ["K".data]) 0 =
      some "H\nK\n".data ∧
    create_patch_from_hunk (ParsedDiff.mk "H".data ["K".data]) 1 = none :=
  ⟨by decide,
    by
      rw [(create_patch_from_hunk_spec (ParsedDiff.mk "H".data ["K".data]) 0).1
        (by decide)]
      rfl,
    (create_patch_from_hunk_spec (ParsedDiff.mk "H".data ["K".data]) 1).2 (by decide)⟩

/-- Claim C3 counterexample: with exit status 0 but non-empty stderr output,
`apply_patch_to_index` reports success, while the claim demands failure
whenever the external step writes anything to stderr. -/
theorem apply_patch_to_index_stderr_counterexample :
    (ProcOutput.mk true [] "warning".data).out_stderr ≠ [] ∧
    apply_patch_to_index []
      (Except.ok (ProcOutput.mk true [] "warning".data)) = Except.ok () :=
  ⟨by decide, rfl⟩

/-- Claim C3 (amended): `apply_patch_to_index` reports success exactly when
the external patch-apply step ran to completion and exited with status 0;
stderr output is never inspected, so stderr output with a zero exit status
is still reported as success. -/
theorem apply_patch_to_index_success_iff (patch : List Char)
    (run_result : Except (List Char) ProcOutput) :
    apply_patch_to_index patch run_result = Except.ok () ↔
      ∃ output, run_result = Except.ok output ∧ output.status_success = true := by
  cases run_result with
  | error e => simp [apply_patch_to_index]
  | ok output =>
    by_cases h : output.status_success = true
    · simp [apply_patch_to_index, h]
    · simp [apply_patch_to_index, h]

/-- Claim C4 counterexample: the input `"a\n"` contains no `@@`-starting
line, yet the parsed header is `"a"`, not the entire input text. -/
theorem parse_diff_output_header_counterexample :
    (∀ l ∈ rustLines "a\n".data, startsWithHH l = false) ∧
    (parse_diff_output "a\n".data).hunks = [] ∧
    (parse_diff_output "a\n".data).header ≠ "a\n".data := by
  refine ⟨by decide, by decide, by decide⟩

/-- Claim C4 (amended): for every input with no `@@`-starting line,
`parse_diff_output` returns `hunks = []` and a header equal to the input's
lines joined with newlines — equal to the entire input text whenever the
input has no carriage returns and no trailing newline; and for every input
whose first line starts with `@@` the header is empty. -/
theorem parse_diff_output_edge_cases (s : List Char) :
    ((∀ l ∈ rustLines s, startsWithHH l = false) →
      (parse_diff_output s).hunks = [] ∧
      (parse_diff_output s).header = joinNl (rustLines s) ∧
      ('\r' ∉ s → s.getLast? ≠ some '\n' → (parse_diff_output s).header = s)) ∧
    (∀ l₀ ls, rustLines s = l₀ :: ls → startsWithHH l₀ = true →
      (parse_diff_output s).header = []) := by
  constructor
  · intro hall
    have hh : (parse_diff_output s).hunks = [] := by
      rw [← List.length_eq_zero, parse_hunks_length, List.countP_eq_zero]
      intro a ha
      simp [hall a ha]
    have hhd : (parse_diff_output s).header = joinNl (rustLines s) := by
      rw [parse_header_eq, takeWhile_all_not_hh hall]
    exact ⟨hh, hhd, fun hr hn => by rw [hhd, joinNl_rustLines hr hn]⟩
  · intro l₀ ls hL h₀
    rw [parse_header_eq, hL, List.takeWhile_cons, if_neg (by simp [h₀])]
    rfl

/-- Witness for C4 at the concrete inputs `"ab"` (no hunk marker) and
`"@@x\ny"` (input beginning with a hunk marker). -/
theorem parse_diff_output_edge_cases_witness :
    (∀ l ∈ rustLines "ab".data, startsWithHH l = false) ∧
    (parse_diff_output "ab".data).hunks = [] ∧
    (parse_diff_output "ab".data).header = "ab".data ∧
    (parse_diff_output "@@x\ny".data).header = [] :=
  ⟨by decide,
    ((parse_diff_output_edge_cases "ab".data).1 (by decide)).1,
    ((parse_diff_output_edge_cases "ab".data).1 (by decide)).2.2 (by decide) (by decide),
    (parse_diff_output_edge_cases "@@x\ny".data).2 "@@x".data ["y".data]
      (by decide) (by decide)⟩

/-- Claim C9: for every input with no carriage returns, no trailing newline,
a non-`@@` first line and at least one `@@`-starting line,
`header ++ "\n" ++ hunks joined with "\n"` reconstructs the input exactly. -/
theorem parse_diff_output_roundtrip (s l₀ : List Char)
    (hr : '\r' ∉ s) (hn : s.getLast? ≠ some '\n')
    (hhead : (rustLines s).head? = some l₀) (hl₀ : startsWithHH l₀ = false)
    (hcnt : (rustLines s).countP (fun l => startsWithHH l) ≠ 0) :
    (parse_diff_output s).header ++ '\n' :: joinNl (parse_diff_output s).hunks = s := by
  obtain ⟨L', hL⟩ : ∃ L', rustLines s = l₀ :: L' := by
    cases hLs : rustLines s with
    | nil => rw [hLs] at hhead; simp at hhead
    | cons a t =>
      rw [hLs] at hhead
      simp at hhead
      exact ⟨t, by rw [hhead]⟩
  have hH : (rustLines s).takeWhile (fun l => !startsWithHH l) ≠ [] := by
    rw [hL, List.takeWhile_cons, if_pos (by simp [hl₀])]
    simp
  have h0 : ((rustLines s).takeWhile
      (fun l => !startsWithHH l)).countP (fun l => startsWithHH l) = 0 := by
    rw [List.countP_eq_zero]
    intro a ha
    have := List.mem_takeWhile_imp ha
    simp at this
    simp [this]
  have hRcnt : ((rustLines s).dropWhile
      (fun l => !startsWithHH l)).countP (fun l => startsWithHH l) ≠ 0 := by
    intro hR0
    apply hcnt
    rw [← List.takeWhile_append_dropWhile (fun l => !startsWithHH l) (rustLines s),
      List.countP_append, h0, hR0]
  have hRne : (rustLines s).dropWhile (fun l => !startsWithHH l) ≠ [] := by
    intro hnil
    rw [hnil] at hRcnt
    simp at hRcnt
  obtain ⟨r₀, R', hR⟩ := List.exists_cons_of_ne_nil hRne
  have hr₀ : startsWithHH r₀ = true := dropWhile_head_hh hR
  have hhunks : (parse_diff_output s).hunks = processHunks R' [r₀] true := by
    show processHunks ((rustLines s).dropWhile (fun l => !startsWithHH l)) [] false = _
    rw [hR]
    simp [processHunks, hr₀]
  rw [parse_header_eq, hhunks, joinNl_processHunks R' [r₀] (by simp)]
  rw [show ([r₀] ++ R' : List (List Char)) = r₀ :: R' from rfl, ← hR,
    ← joinNl_append hH hRne, List.takeWhile_append_dropWhile, joinNl_rustLines hr hn]

/-- Witness for C9 at the concrete diff text `"h\n@@ x\n a"`. -/
theorem parse_diff_output_roundtrip_witness :
    startsWithHH "h".data = false ∧
    (parse_diff_output "h\n@@ x\n a".data).header ++
      '\n' :: joinNl (parse_diff_output "h\n@@ x\n a".data).hunks = "h\n@@ x\n a".data :=
  ⟨by decide, parse_diff_output_roundtrip "h\n@@ x\n a".data "h".data
    (by decide) (by decide) (by decide) (by decide) (by decide)⟩

/-- Claim C8: the diff synthesized for an untracked file consists solely of
lines prefixed `'+'`, so parsing it yields no hunks, and building a patch
from any hunk index fails. -/
theorem untracked_diff_no_hunks (content : List Char) :
    (∀ l ∈ rustLines (get_diff_untracked content), l.head? = some '+') ∧
    (parse_diff_output (get_diff_untracked content)).hunks = [] ∧
    (∀ i, create_patch_from_hunk (parse_diff_output (get_diff_untracked content)) i
      = none) := by
  have key : ∀ l ∈ rustLines (get_diff_untracked content), l.head? = some '+' := by
    rcases hls : rustLines content with _ | ⟨l1, ls1⟩
    · intro l hl
      rw [show get_diff_untracked content = [] by
        unfold get_diff_untracked; rw [hls]; rfl] at hl
      simp [rustLines] at hl
    · intro l hl
      have hgd : get_diff_untracked content =
          joinNl ((l1 :: ls1).map (fun x => '+' :: x)) := by
        unfold get_diff_untracked
        rw [hls]
      have hmemx : ∀ x ∈ (l1 :: ls1).map (fun x => '+' :: x),
          x ≠ [] ∧ '\n' ∉ x ∧ x.head? = some '+' := by
        intro x hx
        obtain ⟨l', hl', hx'⟩ := List.mem_map.1 hx
        subst hx'
        refine ⟨by simp, ?_, rfl⟩
        intro hnl
        rcases List.mem_cons.1 hnl with h' | h'
        · exact absurd h'.symm (by decide)
        · exact mem_rustLines_no_nl (s := content) (by rw [hls]; exact hl') h'
      have hxs_ne : (l1 :: ls1).map (fun x => '+' :: x) ≠ [] := by simp
      have hne : joinNl ((l1 :: ls1).map (fun x => '+' :: x)) ≠ [] := by
        rw [List.map_cons]
        exact joinNl_head_ne_nil (by simp)
      have hlast : (joinNl ((l1 :: ls1).map (fun x => '+' :: x))).getLast? ≠ some '\n' :=
        joinNl_getLast? hxs_ne (fun x hx => ⟨(hmemx x hx).1, (hmemx x hx).2.1⟩)
      have hrl : rustLines (get_diff_untracked content) =
          mapInit stripCR ((l1 :: ls1).map (fun x => '+' :: x)) := by
        rw [hgd]
        unfold rustLines
        rw [if_neg hne, if_neg hlast,
          splitOnNl_joinNl hxs_ne (fun x hx => (hmemx x hx).2.1)]
      rw [hrl] at hl
      obtain ⟨x, hx, hcase⟩ := mem_mapInit hl
      obtain ⟨l', hl', hx'⟩ := List.mem_map.1 hx
      rcases hcase with hcase | hcase
      · rw [hcase, ← hx']
        exact stripCR_plus_head l'
      · rw [hcase, ← hx']
        rfl
  have hh : (parse_diff_output (get_diff_untracked content)).hunks = [] := by
    rw [← List.length_eq_zero, parse_hunks_length, List.countP_eq_zero]
    intro a ha
    simp [startsWithHH_of_head_plus (key a ha)]
  refine ⟨key, hh, fun i => ?_⟩
  have hlen : ¬ i < (parse_diff_output (get_diff_untracked content)).hunks.length := by
    rw [hh]
    simp
  simp [create_patch_from_hunk, hlen]

/- ## Lemmas about the application model -/

theorem update_diff_fields (env : GitEnv) (a : App) :
    (update_diff env a).status = a.status ∧
    (update_diff env a).selected_file_type = a.selected_file_type ∧
    (update_diff env a).selected_file_index = a.selected_file_index ∧
    (update_diff env a).commit_message = a.commit_message ∧
    (update_diff env a).focus = a.focus ∧
    (update_diff env a).should_quit = a.should_quit := by
  unfold update_diff
  rcases hsel : get_selected_file a with _ | ⟨path, ft⟩
  · simp
  · rcases hdr : env.diff_result path ft with e | text <;> simp [hdr]

theorem selection_invariant_update_diff (env : GitEnv) (b : App) :
    selection_invariant (update_diff env b) ↔ selection_invariant b := by
  unfold selection_invariant
  rw [(update_diff_fields env b).1, (update_diff_fields env b).2.1,
    (update_diff_fields env b).2.2.1]

theorem update_status_invariant (env : GitEnv) (a : App) :
    selection_invariant (update_status env a) := by
  show selection_invariant (update_diff env
    { a with status := env.status,
             selected_file_index :=
               if (sectionList env.status a.selected_file_type).length = 0 then 0
               else if a.selected_file_index ≥
                   (sectionList env.status a.selected_file_type).length
               then (sectionList env.status a.selected_file_type).length - 1
               else a.selected_file_index })
  rw [selection_invariant_update_diff]
  show (if (sectionList env.status a.selected_file_type).length = 0 then 0
        else if a.selected_file_index ≥ (sectionList env.status a.selected_file_type).length
        then (sectionList env.status a.selected_file_type).length - 1
        else a.selected_file_index) < (sectionList env.status a.selected_file_type).length ∨
      ((sectionList env.status a.selected_file_type).length = 0 ∧
        (if (sectionList env.status a.selected_file_type).length = 0 then 0
        else if a.selected_file_index ≥ (sectionList env.status a.selected_file_type).length
        then (sectionList env.status a.selected_file_type).length - 1
        else a.selected_file_index) = 0)
  split_ifs with h1 h2 <;> omega

theorem update_status_commit_message (env : GitEnv) (b : App) :
    (update_status env b).commit_message = b.commit_message :=
  (update_diff_fields env _).2.2.2.1

theorem sectionList_length (st : StatusFiles) (ft : FileType) :
    (sectionList st ft).length =
      secCount st.staged.length st.not_staged.length st.untracked.length ft := by
  cases ft <;> rfl

theorem select_next_proj (env : GitEnv) (a : App) :
    (select_next env a).status = a.status ∧
    (select_next env a).selected_file_type =
      (select_next_sel a.status.staged.length a.status.not_staged.length
        a.status.untracked.length (a.selected_file_type, a.selected_file_index)).1 ∧
    (select_next env a).selected_file_index =
      (select_next_sel a.status.staged.length a.status.not_staged.length
        a.status.untracked.length (a.selected_file_type, a.selected_file_index)).2 :=
  ⟨(update_diff_fields env _).1, (update_diff_fields env _).2.1,
    (update_diff_fields env _).2.2.1⟩

theorem select_previous_proj (env : GitEnv) (a : App) :
    (select_previous env a).status = a.status ∧
    (select_previous env a).selected_file_type =
      (select_previous_sel a.status.staged.length a.status.not_staged.length
        a.status.untracked.length (a.selected_file_type, a.selected_file_index)).1 ∧
    (select_previous env a).selected_file_index =
      (select_previous_sel a.status.staged.length a.status.not_staged.length
        a.status.untracked.length (a.selected_file_type, a.selected_file_index)).2 :=
  ⟨(update_diff_fields env _).1, (update_diff_fields env _).2.1,
    (update_diff_fields env _).2.2.1⟩

theorem select_next_sel_inv (s n u : Nat) (p : FileType × Nat) :
    (select_next_sel s n u p).2 < secCount s n u (select_next_sel s n u p).1 ∨
    (secCount s n u (select_next_sel s n u p).1 = 0 ∧
      (select_next_sel s n u p).2 = 0) := by
  rcases p with ⟨ft, i⟩
  cases ft <;> simp only [select_next_sel] <;> split_ifs <;>
    dsimp only <;> simp only [secCount, and_true] <;> omega

theorem select_previous_sel_inv (s n u : Nat) (p : FileType × Nat)
    (hp : p.2 < secCount s n u p.1 ∨ (secCount s n u p.1 = 0 ∧ p.2 = 0)) :
    (select_previous_sel s n u p).2 < secCount s n u (select_previous_sel s n u p).1 ∨
    (secCount s n u (select_previous_sel s n u p).1 = 0 ∧
      (select_previous_sel s n u p).2 = 0) := by
  rcases p with ⟨ft, i⟩
  dsimp only at hp ⊢
  cases ft <;> simp only [secCount, select_previous_sel] at hp ⊢ <;> split_ifs <;>
    dsimp only <;> omega

theorem select_next_invariant (env : GitEnv) (a : App) :
    selection_invariant (select_next env a) := by
  obtain ⟨h1, h2, h3⟩ := select_next_proj env a
  unfold selection_invariant
  rw [h1, h2, h3, sectionList_length]
  exact select_next_sel_inv _ _ _ _

theorem select_previous_invariant (env : GitEnv) (a : App)
    (ha : selection_invariant a) : selection_invariant (select_previous env a) := by
  obtain ⟨h1, h2, h3⟩ := select_previous_proj env a
  unfold selection_invariant
  rw [h1, h2, h3, sectionList_length]
  apply select_previous_sel_inv
  unfold selection_invariant at ha
  rw [sectionList_length] at ha
  exact ha

theorem toggle_selection_invariant (env : GitEnv) (a : App)
    (ha : selection_invariant a) : selection_invariant (toggle_selection env a) := by
  rcases hsel : get_selected_file a with _ | ⟨path, ft⟩ <;>
    simp only [toggle_selection, hsel]
  · exact ha
  · split_ifs
    · exact update_status_invariant env a
    · exact ha

theorem commit_invariant (env : GitEnv) (a : App)
    (ha : selection_invariant a) : selection_invariant (commit env a) := by
  unfold commit
  split_ifs
  · exact update_status_invariant env _
  · exact ha

theorem apply_hunk_invariant (env : GitEnv) (a : App)
    (ha : selection_invariant a) : selection_invariant (apply_hunk env a) := by
  rcases hpd : a.parsed_diff with _ | pd <;> simp only [apply_hunk, hpd]
  · exact ha
  · rcases hhi : get_hunk_index_from_line pd (a.diff_selected_line - a.diff_scroll)
      with _ | hi <;> simp only [hhi]
    · exact ha
    · rcases hcp : create_patch_from_hunk pd hi with _ | patch <;> simp only [hcp]
      · exact ha
      · split_ifs
        · exact update_status_invariant env a
        · exact ha

theorem toFlat_lt (s n u : Nat) (p : FileType × Nat)
    (hp : p.2 < secCount s n u p.1) : toFlat s n p < s + n + u := by
  rcases p with ⟨ft, i⟩
  cases ft <;> simp only [toFlat, secCount] at hp ⊢ <;> omega

theorem ofFlat_toFlat (s n u : Nat) (p : FileType × Nat)
    (hp : p.2 < secCount s n u p.1) : ofFlat s n (toFlat s n p) = p := by
  rcases p with ⟨ft, i⟩
  cases ft <;> simp only [toFlat, secCount] at hp ⊢ <;> unfold ofFlat <;> split_ifs <;>
    simp only [Prod.mk.injEq, true_and, false_and] <;>
    first
    | (exfalso; omega)
    | omega

theorem select_next_sel_ofFlat (s n u k : Nat) (hk : k < s + n + u) :
    select_next_sel s n u (ofFlat s n k) = ofFlat s n ((k + 1) % (s + n + u)) := by
  rcases Nat.lt_or_ge (k + 1) (s + n + u) with hend | hend
  · rw [Nat.mod_eq_of_lt hend]
    unfold ofFlat
    split_ifs <;> simp only [select_next_sel] <;> split_ifs <;>
      simp only [Prod.mk.injEq, true_and, false_and] <;>
      first
      | (exfalso; omega)
      | omega
  · have hkN : k + 1 = s + n + u := by omega
    rw [hkN, Nat.mod_self]
    unfold ofFlat
    split_ifs <;> simp only [select_next_sel] <;> split_ifs <;>
      simp only [Prod.mk.injEq, true_and, false_and] <;>
      first
      | (exfalso; omega)
      | omega

theorem select_next_sel_iterate (s n u : Nat) (m : Nat) : ∀ k, k < s + n + u →
    (select_next_sel s n u)^[m] (ofFlat s n k) =
      ofFlat s n ((k + m) % (s + n + u)) := by
  induction m with
  | zero =>
    intro k hk
    simp [Nat.mod_eq_of_lt hk]
  | succ m ih =>
    intro k hk
    rw [Function.iterate_succ_apply, select_next_sel_ofFlat s n u k hk,
      ih ((k + 1) % (s + n + u)) (Nat.mod_lt _ (by omega)), Nat.mod_add_mod]
    have harg : k + 1 + m = k + (m + 1) := by omega
    rw [harg]

theorem select_next_sel_ring (s n u : Nat) (p : FileType × Nat)
    (hp : p.2 < secCount s n u p.1) :
    (select_next_sel s n u)^[s + n + u] p = p := by
  have h1 := select_next_sel_iterate s n u (s + n + u) (toFlat s n p)
    (toFlat_lt s n u p hp)
  rw [ofFlat_toFlat s n u p hp] at h1
  rw [h1, Nat.add_mod_right, Nat.mod_eq_of_lt (toFlat_lt s n u p hp),
    ofFlat_toFlat s n u p hp]

theorem select_next_iterate_proj (env : GitEnv) (a : App) : ∀ m : Nat,
    ((select_next env)^[m] a).status = a.status ∧
    (((select_next env)^[m] a).selected_file_type,
      ((select_next env)^[m] a).selected_file_index) =
      (select_next_sel a.status.staged.length a.status.not_staged.length
        a.status.untracked.length)^[m]
        (a.selected_file_type, a.selected_file_index) := by
  intro m
  induction m with
  | zero => exact ⟨rfl, rfl⟩
  | succ m ih =>
    obtain ⟨ihs, ihp⟩ := ih
    rw [Function.iterate_succ_apply', Function.iterate_succ_apply']
    obtain ⟨h1, h2, h3⟩ := select_next_proj env ((select_next env)^[m] a)
    refine ⟨by rw [h1, ihs], ?_⟩
    rw [h2, h3, Prod.mk.eta, ihs, ihp]

/- ## Claim theorems about the selection state machine -/

/-- Claim C5 counterexample: from the invariant-valid selection
(Staged, 0) with an empty staged section and one not-staged file
(`N = 1`), one application of `select_next` lands on (NotStaged, 0),
not back on the original (section, index). -/
theorem select_next_ring_counterexample :
    selection_invariant (mkApp (StatusFiles.mk [] [['a']] []) FileType.Staged 0 []) ∧
    total_files (StatusFiles.mk [] [['a']] []) = 1 ∧
    ((select_next (mkEnv (StatusFiles.mk [] [['a']] [])))^[1]
        (mkApp (StatusFiles.mk [] [['a']] []) FileType.Staged 0 [])).selected_file_type
      ≠ FileType.Staged := by
  refine ⟨by decide, by decide, ?_⟩
  show (select_next (mkEnv (StatusFiles.mk [] [['a']] []))
    (mkApp (StatusFiles.mk [] [['a']] []) FileType.Staged 0 [])).selected_file_type
      ≠ FileType.Staged
  decide

/-- Claim C5 (amended): for every status and every starting
(section, index) whose index is in bounds of its (hence non-empty)
section, applying `select_next` exactly `total_files` times with no
mutation in between returns the selection to the original
(section, index); a start at index 0 of an empty section is excluded. -/
theorem select_next_ring (env : GitEnv) (a : App)
    (hvalid : a.selected_file_index <
      (sectionList a.status a.selected_file_type).length) :
    ((select_next env)^[total_files a.status] a).selected_file_type =
      a.selected_file_type ∧
    ((select_next env)^[total_files a.status] a).selected_file_index =
      a.selected_file_index := by
  obtain ⟨hs, hp⟩ := select_next_iterate_proj env a (total_files a.status)
  have hvalid' : (a.selected_file_type, a.selected_file_index).2 <
      secCount a.status.staged.length a.status.not_staged.length
        a.status.untracked.length (a.selected_file_type, a.selected_file_index).1 := by
    rw [sectionList_length] at hvalid
    exact hvalid
  have hring := select_next_sel_ring a.status.staged.length a.status.not_staged.length
    a.status.untracked.length (a.selected_file_type, a.selected_file_index) hvalid'
  have htot : total_files a.status =
      a.status.staged.length + a.status.not_staged.length + a.status.untracked.length :=
    rfl
  rw [htot] at hp
  rw [hring] at hp
  exact ⟨congrArg Prod.fst hp, congrArg Prod.snd hp⟩

/-- Witness for C5 at a concrete status with one staged and one not-staged
file, starting from (Staged, 0). -/
theorem select_next_ring_witness :
    (mkApp stW FileType.Staged 0 []).selected_file_index <
      (sectionList (mkApp stW FileType.Staged 0 []).status
        (mkApp stW FileType.Staged 0 []).selected_file_type).length ∧
    ((select_next (mkEnv stW))^[total_files stW]
        (mkApp stW FileType.Staged 0 [])).selected_file_type = FileType.Staged ∧
    ((select_next (mkEnv stW))^[total_files stW]
        (mkApp stW FileType.Staged 0 [])).selected_file_index = 0 :=
  ⟨by decide,
    (select_next_ring (mkEnv stW) (mkApp stW FileType.Staged 0 []) (by decide)).1,
    (select_next_ring (mkEnv stW) (mkApp stW FileType.Staged 0 []) (by decide)).2⟩

/-- Claim C6: the FileSelector invariant — the selected index is in bounds
of the current section, or 0 when that section is empty — holds after
`update_status` and is preserved by `select_next`, `select_previous`,
`toggle_selection`, `commit` and `apply_hunk`. -/
theorem selection_invariant_preserved (env : GitEnv) (a : App) :
    selection_invariant (update_status env a) ∧
    (selection_invariant a → selection_invariant (select_next env a)) ∧
    (selection_invariant a → selection_invariant (select_previous env a)) ∧
    (selection_invariant a → selection_invariant (toggle_selection env a)) ∧
    (selection_invariant a → selection_invariant (commit env a)) ∧
    (selection_invariant a → selection_invariant (apply_hunk env a)) :=
  ⟨update_status_invariant env a,
    fun _ => select_next_invariant env a,
    select_previous_invariant env a,
    toggle_selection_invariant env a,
    commit_invariant env a,
    apply_hunk_invariant env a⟩

/-- Witness for C6 at a concrete invariant-valid state. -/
theorem selection_invariant_preserved_witness :
    selection_invariant (mkApp stW FileType.Staged 0 []) ∧
    selection_invariant (update_status (mkEnv stW) (mkApp stW FileType.Staged 0 [])) ∧
    selection_invariant (select_previous (mkEnv stW) (mkApp stW FileType.Staged 0 [])) :=
  ⟨by decide,
    (selection_invariant_preserved (mkEnv stW) (mkApp stW FileType.Staged 0 [])).1,
    (selection_invariant_preserved (mkEnv stW)
      (mkApp stW FileType.Staged 0 [])).2.2.1 (by decide)⟩

/-- Claim C7: a commit attempt with an empty message buffer or a failing
backend commit leaves the application state — in particular the message
buffer — exactly as it was and triggers no status refresh; a successful
commit of a non-empty message clears the buffer and triggers a status
refresh. -/
theorem commit_message_buffer (env : GitEnv) (a : App) :
    (a.commit_message = [] ∨ env.commit_ok = false → commit env a = a) ∧
    (a.commit_message ≠ [] → env.commit_ok = true →
      commit env a = update_status env { a with commit_message := [] } ∧
      (commit env a).commit_message = []) := by
  constructor
  · rintro (h | h)
    · unfold commit
      rw [if_neg (by simp [h])]
    · unfold commit
      rw [if_neg (by simp [h])]
  · intro h1 h2
    have hcond : (!a.commit_message.isEmpty && env.commit_ok) = true := by
      simp [List.isEmpty_iff, h1, h2]
    constructor
    · unfold commit
      rw [if_pos hcond]
    · unfold commit
      rw [if_pos hcond, update_status_commit_message]

/-- Witness for C7: a failing-backend attempt changes nothing; a
successful commit of the message `"m"` clears the buffer. -/
theorem commit_message_buffer_witness :
    (mkApp stW FileType.Staged 0 ['m']).commit_message ≠ [] ∧
    commit (mkEnv stW) (mkApp stW FileType.Staged 0 ['m']) =
      update_status (mkEnv stW)
        { mkApp stW FileType.Staged 0 ['m'] with commit_message := [] } ∧
    (commit (mkEnv stW) (mkApp stW FileType.Staged 0 ['m'])).commit_message = [] :=
  ⟨by decide,
    ((commit_message_buffer (mkEnv stW) (mkApp stW FileType.Staged 0 ['m'])).2
      (by decide) (by decide)).1,
    ((commit_message_buffer (mkEnv stW) (mkApp stW FileType.Staged 0 ['m'])).2
      (by decide) (by decide)).2⟩

/-- Claim C10: for every focus and every key code with no binding in that
focus (the wildcard arm of the `match`), `handle_key_event` returns the
application state unchanged in every field. -/
theorem handle_key_event_unbound (env : GitEnv) (a : App) (k : KeyCode)
    (dh : Nat) (h : hasBinding a.focus k = false) :
    handle_key_event env a k dh = a := by
  unfold handle_key_event
  cases hf : a.focus <;> cases k <;> simp_all [hasBinding]

/-- Witness for C10: the character `'x'` is unbound in the Files focus and
leaves the state unchanged. -/
theorem handle_key_event_unbound_witness :
    hasBinding (mkApp stW FileType.Staged 0 []).focus (KeyCode.Char 'x') = false ∧
    handle_key_event (mkEnv stW) (mkApp stW FileType.Staged 0 [])
      (KeyCode.Char 'x') 10 = mkApp stW FileType.Staged 0 [] :=
  ⟨by decide,
    handle_key_event_unbound (mkEnv stW) (mkApp stW FileType.Staged 0 [])
      (KeyCode.Char 'x') 10 (by decide)⟩
